import Mathlib

/-!
Verification of the note-scheduling and judgment engine of the rhythm game.

The engine lives in the game-screen component: a chart generator
(`generateNotes`), a frame loop that advances the clock and sweeps overdue
notes into the missed state (`gameLoop`), a press handler that matches a lane
press against the closest pending note (`hitNote`), a pause toggle and a
restart.  The reactive component state
(`notes, score, combo, maxCombo, missCount, gameTime, isPaused, isGameOver`)
is embedded as an explicit `GameState`, and each handler as a state
transformer.  Times and positions are modelled as rationals (the source works
with JavaScript numbers on millisecond values); `Math.random()` draws are
modelled as an injected stream `rnd : ℕ → ℚ` of values in `[0, 1)`, consumed
in source order.
-/

namespace RhythmGame

/-- `const LANES = 4`. -/
def LANES : ℕ := 4

/-- `const NOTE_SPEED = 2`. -/
def NOTE_SPEED : ℚ := 2

/-- `const HIT_ZONE_Y = 550`. -/
def HIT_ZONE_Y : ℚ := 550

/-- `const MISS_THRESHOLD = 650`. -/
def MISS_THRESHOLD : ℚ := 650

/-- A scheduled note `{ id, lane, timing, hit, missed }`.  The source's string
id `` `${beat}-${i}` `` is modelled as the pair `(beat, i)` of naturals (the
template string is injective on such pairs). -/
structure Note where
  id : ℕ × ℕ
  lane : ℕ
  timing : ℚ
  hit : Bool
  missed : Bool
deriving DecidableEq

/-- The spec's three-valued note status, derived from the source's two
booleans (`hit` takes priority; the code never sets both). -/
inductive Status where
  | Pending
  | Hit
  | Missed
deriving DecidableEq

/-- Status of a note: `Hit` if `hit`, else `Missed` if `missed`, else
`Pending`. -/
def Note.status (n : Note) : Status :=
  if n.hit then Status.Hit else if n.missed then Status.Missed else Status.Pending

/-- Song difficulty (`'Easy' | 'Normal' | 'Hard'`). -/
inductive Difficulty where
  | Easy
  | Normal
  | Hard
deriving DecidableEq

/-- Number of `Math.random()` draws the density conditional consumes for one
beat: the ternary chain only evaluates `Math.random()` for `Hard` and
`Normal`. -/
def densityDraws (d : Difficulty) : ℕ :=
  match d with
  | Difficulty.Easy => 0
  | Difficulty.Normal => 1
  | Difficulty.Hard => 1

/-- `notesPerBeat`: `Hard ? (Math.random() > 0.3 ? 2 : 1) :
Normal ? (Math.random() > 0.5 ? 2 : 1) : 1`, with `r` the consumed draw
(ignored for `Easy`). -/
def notesPerBeat (d : Difficulty) (r : ℚ) : ℕ :=
  match d with
  | Difficulty.Hard => if 3/10 < r then 2 else 1
  | Difficulty.Normal => if 1/2 < r then 2 else 1
  | Difficulty.Easy => 1

/-- The `k` notes pushed for beat `beat`: note `i` gets id `(beat, i)`,
lane `Math.floor(Math.random() * LANES)` (draw at stream index `idx + i`) and
timing `beat * beatInterval + i * beatInterval / k`. -/
def beatNotes (bi : ℚ) (beat k : ℕ) (rnd : ℕ → ℚ) (idx : ℕ) : List Note :=
  (List.range k).map fun i =>
    { id := (beat, i)
      lane := (⌊rnd (idx + i) * (LANES : ℚ)⌋).toNat
      timing := (beat : ℚ) * bi + (i : ℚ) * bi / (k : ℚ)
      hit := false
      missed := false }

/-- The beat loop of `generateNotes`: `rem` remaining beats, current beat
index `beat`, next unread random-stream index `idx`.  Every beat first draws
its density `notesPerBeat` (consuming `densityDraws` values), then one lane
draw per placed note. -/
def genAux (bi : ℚ) (d : Difficulty) (rnd : ℕ → ℚ) : ℕ → ℕ → ℕ → List Note
  | 0, _, _ => []
  | rem + 1, beat, idx =>
    beatNotes bi beat (notesPerBeat d (rnd idx)) rnd (idx + densityDraws d) ++
      genAux bi d rnd rem (beat + 1) (idx + densityDraws d + notesPerBeat d (rnd idx))

/-- `generateNotes`: beat interval `60000 / bpm`, one `beatNotes` batch per
beat.  The source fixes `totalBeats = 60`; it is kept as a parameter (the spec
exposes it as `sessionLengthBeats`). -/
def generateNotes (bpm : ℚ) (d : Difficulty) (totalBeats : ℕ) (rnd : ℕ → ℚ) : List Note :=
  genAux (60000 / bpm) d rnd totalBeats 0 0

/-- The whole reactive game-screen state. -/
structure GameState where
  notes : List Note
  score : ℕ
  combo : ℕ
  maxCombo : ℕ
  missCount : ℕ
  gameTime : ℚ
  isPaused : Bool
  isGameOver : Bool
deriving DecidableEq

/-- The spec's session lifecycle, derived from the two source booleans. -/
inductive Lifecycle where
  | Running
  | Paused
  | GameOver
deriving DecidableEq

/-- `GameOver` dominates `Paused`: the game-over overlay shows regardless of
pause, and the loop stops for either flag. -/
def GameState.lifecycle (s : GameState) : Lifecycle :=
  if s.isGameOver then Lifecycle.GameOver
  else if s.isPaused then Lifecycle.Paused
  else Lifecycle.Running

/-- `noteY = (gameTime - note.timing) * NOTE_SPEED / 16`. -/
def notePos (clock : ℚ) (n : Note) : ℚ :=
  (clock - n.timing) * NOTE_SPEED / 16

/-- `distance = Math.abs(noteY - HIT_ZONE_Y)`. -/
def noteDistance (clock : ℚ) (n : Note) : ℚ :=
  |notePos clock n - HIT_ZONE_Y|

/-- The filter of `hitNote`: `note.lane === lane && !note.hit &&
!note.missed`. -/
def lanePending (lane : ℕ) (n : Note) : Bool :=
  n.lane == lane && !n.hit && !n.missed

/-- One step of the closest-note scan.  `none` stands for
`closestNote = null, closestDistance = Infinity`; the branch condition is
`distance < closestDistance && distance < 100` (with `closestDistance = ∞`
the first conjunct is vacuous). -/
def scanStep (clock : ℚ) (acc : Option (Note × ℚ)) (n : Note) : Option (Note × ℚ) :=
  let d := noteDistance clock n
  match acc with
  | none => if d < 100 then some (n, d) else none
  | some (c, cd) => if d < cd ∧ d < 100 then some (n, d) else some (c, cd)

/-- The closest-pending-note search of `hitNote`: filter the lane's pending
notes, then run the `forEach` accumulator scan. -/
def findClosest (clock : ℚ) (lane : ℕ) (notes : List Note) : Option (Note × ℚ) :=
  (notes.filter (lanePending lane)).foldl (scanStep clock) none

/-- Accuracy class of a registered hit. -/
inductive HitKind where
  | Perfect
  | Good
deriving DecidableEq

/-- Result of a press: a registered hit with its accuracy class and points, or
no target in the window. -/
inductive HitResult where
  | Hit (kind : HitKind) (points : ℕ)
  | NoTarget
deriving DecidableEq

/-- `hitNote(lane)`: find the closest pending note of the lane within the
window; on success mark it hit (by id), add `300` points if
`closestDistance < 30` else `100`, increment the combo, fold the new combo
into `maxCombo`, and reset `missCount` to `0`; otherwise change nothing. -/
def hitNote (lane : ℕ) (s : GameState) : GameState × HitResult :=
  match findClosest s.gameTime lane s.notes with
  | some (c, cd) =>
    let pts : ℕ := if cd < 30 then 300 else 100
    let kind : HitKind := if cd < 30 then HitKind.Perfect else HitKind.Good
    ({ s with
        notes := s.notes.map fun n => if n.id = c.id then { n with hit := true } else n
        score := s.score + pts
        combo := s.combo + 1
        maxCombo := max s.maxCombo (s.combo + 1)
        missCount := 0 },
      HitResult.Hit kind pts)
  | none => (s, HitResult.NoTarget)

/-- A lane press as delivered by `handleKeyDown`: dropped entirely when
`isGameOver` (the handler returns first thing), otherwise `hitNote` runs —
note there is no `isPaused` guard in the source handler. -/
def press (lane : ℕ) (s : GameState) : GameState × HitResult :=
  if s.isGameOver then (s, HitResult.NoTarget) else hitNote lane s

/-- The miss-sweep condition of the game loop:
`noteY > MISS_THRESHOLD && !note.hit && !note.missed`. -/
def overdue (clock : ℚ) (n : Note) : Prop :=
  MISS_THRESHOLD < notePos clock n ∧ n.hit = false ∧ n.missed = false

instance (clock : ℚ) (n : Note) : Decidable (overdue clock n) := by
  unfold overdue; infer_instance

/-- The per-note action of the miss sweep: mark an overdue pending note
missed, leave every other note alone. -/
def sweepNote (clock : ℚ) (n : Note) : Note :=
  if overdue clock n then { n with missed := true } else n

/-- Number of notes the sweep at `clock` newly marks missed. -/
def missSweepCount (clock : ℚ) (notes : List Note) : ℕ :=
  (notes.filter fun n => decide (overdue clock n)).length

/-- One invocation of `gameLoop` while active, as `advance(delta)`: the clock
advances by the frame delta, but the miss sweep evaluates `noteY` at the
`gameTime` captured by the effect's closure — the PRE-update clock — so the
sweep lags the clock by one frame.  Every overdue pending note is marked
missed; each such note zeroes the combo and increments `missCount`, and each
increment that reaches `10` sets `isGameOver`, so `isGameOver` ends up set
exactly when at least one note was swept and the total reached `10`.  The
whole loop is skipped when `isPaused || isGameOver`. -/
def advance (delta : ℚ) (s : GameState) : GameState :=
  if s.isPaused || s.isGameOver then s
  else
    { s with
        gameTime := s.gameTime + delta
        notes := s.notes.map (sweepNote s.gameTime)
        combo := if 0 < missSweepCount s.gameTime s.notes then 0 else s.combo
        missCount := s.missCount + missSweepCount s.gameTime s.notes
        isGameOver := s.isGameOver ||
          decide (0 < missSweepCount s.gameTime s.notes ∧
            10 ≤ s.missCount + missSweepCount s.gameTime s.notes) }

/-- The SPACE handler's pause toggle; like the rest of `handleKeyDown` it is
dropped when `isGameOver`. -/
def togglePause (s : GameState) : GameState :=
  if s.isGameOver then s else { s with isPaused := !s.isPaused }

/-- `restartGame`: zero every counter and the clock, clear both flags,
regenerate the chart. -/
def restart (bpm : ℚ) (d : Difficulty) (totalBeats : ℕ) (rnd : ℕ → ℚ)
    (_s : GameState) : GameState :=
  { notes := generateNotes bpm d totalBeats rnd
    score := 0
    combo := 0
    maxCombo := 0
    missCount := 0
    gameTime := 0
    isPaused := false
    isGameOver := false }

/-- The state at session start: fresh chart, zeroed counters, running. -/
def initState (bpm : ℚ) (d : Difficulty) (totalBeats : ℕ) (rnd : ℕ → ℚ) : GameState :=
  { notes := generateNotes bpm d totalBeats rnd
    score := 0
    combo := 0
    maxCombo := 0
    missCount := 0
    gameTime := 0
    isPaused := false
    isGameOver := false }

/-- One event processed by the engine within a session (restart starts a new
session and is kept separate). -/
inductive Step : GameState → GameState → Prop
  | advance (s : GameState) (delta : ℚ) (hd : 0 ≤ delta) : Step s (advance delta s)
  | press (s : GameState) (lane : ℕ) : Step s (press lane s).1
  | toggle (s : GameState) : Step s (togglePause s)

/-- Session states reachable through the engine's API from a session start,
with a positive tempo and random draws in `[0, 1)`. -/
inductive Reachable : GameState → Prop
  | init (bpm : ℚ) (d : Difficulty) (tb : ℕ) (rnd : ℕ → ℚ)
      (hbpm : 0 < bpm) (hr : ∀ n, 0 ≤ rnd n ∧ rnd n < 1) :
      Reachable (initState bpm d tb rnd)
  | advance (s : GameState) (delta : ℚ) (h : Reachable s) (hd : 0 ≤ delta) :
      Reachable (advance delta s)
  | press (s : GameState) (lane : ℕ) (h : Reachable s) : Reachable (press lane s).1
  | toggle (s : GameState) (h : Reachable s) : Reachable (togglePause s)
  | restart (s : GameState) (bpm : ℚ) (d : Difficulty) (tb : ℕ) (rnd : ℕ → ℚ)
      (h : Reachable s) (hbpm : 0 < bpm) (hr : ∀ n, 0 ≤ rnd n ∧ rnd n < 1) :
      Reachable (restart bpm d tb rnd s)

/-- A note a press may legitimately land on: same lane, still pending, within
the 100-unit window around the hit line. -/
def qualifies (clock : ℚ) (lane : ℕ) (n : Note) : Prop :=
  n.lane = lane ∧ n.status = Status.Pending ∧ noteDistance clock n < 100

/-- Every still-pending note sits at or before the miss line with respect to
the state's own clock.  Because the source's sweep lags the clock by one
frame, this is NOT invariant across `advance`; it does hold right after a
zero-delta frame. -/
def pendingInBounds (s : GameState) : Prop :=
  ∀ n ∈ s.notes, n.status = Status.Pending → notePos s.gameTime n ≤ MISS_THRESHOLD

instance (s : GameState) : Decidable (pendingInBounds s) := by
  unfold pendingInBounds; infer_instance

/-- The press-acceptance predicate of the first observed variant of
`hitNote`: `Math.abs((gameTime - note.timing) + HIT_ZONE_Y / NOTE_SPEED) <
100`. -/
def offsetAccept (clock timing : ℚ) : Prop :=
  |clock - timing + HIT_ZONE_Y / NOTE_SPEED| < 100

/-- The press-acceptance predicate of the second observed variant of
`hitNote`: `Math.abs((gameTime - note.timing) * NOTE_SPEED / 16 -
HIT_ZONE_Y) < 100`. -/
def positionAccept (clock timing : ℚ) : Prop :=
  |(clock - timing) * NOTE_SPEED / 16 - HIT_ZONE_Y| < 100

instance (clock timing : ℚ) : Decidable (offsetAccept clock timing) := by
  unfold offsetAccept; infer_instance

instance (clock timing : ℚ) : Decidable (positionAccept clock timing) := by
  unfold positionAccept; infer_instance

/-- A constant random stream, handy for concrete sessions. -/
def f0 : ℕ → ℚ := fun _ => 0

/-- The single note of a one-beat Easy chart at 120 BPM with the zero
stream. -/
def note0 : Note := { id := (0, 0), lane := 0, timing := 0, hit := false, missed := false }

/-- A one-note session at its start. -/
def demoInit : GameState := initState 120 Difficulty.Easy 1 f0

/-- The same session advanced to the instant its note sits on the hit line. -/
def demoState : GameState := advance 4400 demoInit

/-- The same session paused at that instant. -/
def demoPaused : GameState := togglePause demoState

/-- A game-over state used to exercise the terminal guards. -/
def overState : GameState :=
  { notes := [], score := 0, combo := 0, maxCombo := 0, missCount := 10,
    gameTime := 0, isPaused := false, isGameOver := true }

theorem status_pending_iff (n : Note) :
    n.status = Status.Pending ↔ n.hit = false ∧ n.missed = false := by
  cases hh : n.hit <;> cases hm : n.missed <;> simp [Note.status, hh, hm]

theorem status_hit_iff (n : Note) : n.status = Status.Hit ↔ n.hit = true := by
  cases hh : n.hit <;> cases hm : n.missed <;> simp [Note.status, hh, hm]

theorem status_missed_iff (n : Note) :
    n.status = Status.Missed ↔ n.hit = false ∧ n.missed = true := by
  cases hh : n.hit <;> cases hm : n.missed <;> simp [Note.status, hh, hm]

theorem lanePending_iff (lane : ℕ) (n : Note) :
    lanePending lane n = true ↔ n.lane = lane ∧ n.status = Status.Pending := by
  simp [lanePending, status_pending_iff, Bool.and_eq_true, and_assoc]

theorem lifecycle_running_iff (s : GameState) :
    s.lifecycle = Lifecycle.Running ↔ s.isGameOver = false ∧ s.isPaused = false := by
  cases hg : s.isGameOver <;> cases hp : s.isPaused <;> simp [GameState.lifecycle, hg, hp]

theorem lifecycle_gameOver_iff (s : GameState) :
    s.lifecycle = Lifecycle.GameOver ↔ s.isGameOver = true := by
  cases hg : s.isGameOver <;> cases hp : s.isPaused <;> simp [GameState.lifecycle, hg, hp]

theorem lifecycle_paused_iff (s : GameState) :
    s.lifecycle = Lifecycle.Paused ↔ s.isGameOver = false ∧ s.isPaused = true := by
  cases hg : s.isGameOver <;> cases hp : s.isPaused <;> simp [GameState.lifecycle, hg, hp]

theorem scanStep_none (clock : ℚ) (n : Note) :
    scanStep clock none n =
      if noteDistance clock n < 100 then some (n, noteDistance clock n) else none := rfl

theorem scanStep_some (clock : ℚ) (c : Note) (cd : ℚ) (n : Note) :
    scanStep clock (some (c, cd)) n =
      if noteDistance clock n < cd ∧ noteDistance clock n < 100
      then some (n, noteDistance clock n) else some (c, cd) := rfl

/-- The scan yields `none` exactly when it started from `none` and no scanned
note is inside the window. -/
theorem scan_none_iff (clock : ℚ) (l : List Note) :
    ∀ acc, l.foldl (scanStep clock) acc = none ↔
      acc = none ∧ ∀ n ∈ l, ¬ noteDistance clock n < 100 := by
  induction l with
  | nil => intro acc; simp
  | cons x xs ih =>
    intro acc
    rw [List.foldl_cons, ih]
    cases acc with
    | none =>
      by_cases hx : noteDistance clock x < 100
      · simp [scanStep_none, hx, List.forall_mem_cons]
      · simp [scanStep_none, hx, List.forall_mem_cons, not_lt.1 hx]
    | some p =>
      obtain ⟨c, cd⟩ := p
      by_cases hx : noteDistance clock x < cd ∧ noteDistance clock x < 100 <;>
        simp [scanStep_some, hx, List.forall_mem_cons]

/-- A note produced by the scan is the seed or one of the scanned notes. -/
theorem scan_mem (clock : ℚ) (l : List Note) :
    ∀ acc c d, l.foldl (scanStep clock) acc = some (c, d) →
      acc = some (c, d) ∨ c ∈ l := by
  induction l with
  | nil => intro acc c d h; simp at h; simp [h]
  | cons x xs ih =>
    intro acc c d h
    rw [List.foldl_cons] at h
    rcases ih _ c d h with h' | h'
    · cases acc with
      | none =>
        rw [scanStep_none] at h'
        by_cases hx : noteDistance clock x < 100
        · rw [if_pos hx] at h'
          obtain ⟨rfl, -⟩ := Prod.mk.injEq .. ▸ Option.some.injEq .. ▸ h'
          exact Or.inr (List.mem_cons_self x xs)
        · rw [if_neg hx] at h'
          exact absurd h' (by simp)
      | some p =>
        obtain ⟨c₀, cd₀⟩ := p
        rw [scanStep_some] at h'
        by_cases hx : noteDistance clock x < cd₀ ∧ noteDistance clock x < 100
        · rw [if_pos hx] at h'
          obtain ⟨rfl, -⟩ := Prod.mk.injEq .. ▸ Option.some.injEq .. ▸ h'
          exact Or.inr (List.mem_cons_self x xs)
        · rw [if_neg hx] at h'
          exact Or.inl h'
    · exact Or.inr (List.mem_cons_of_mem x h')

/-- Full specification of a successful scan over a list sorted by timing: it
returns a note together with its distance, the distance is inside the window
and minimal over the scanned notes, it is below the seed's distance (strictly
unless the seed itself survived), and on distance ties the returned note's
timing is the least. -/
theorem scan_some_spec (clock : ℚ) (l : List Note) :
    ∀ acc,
      (∀ c₀ d₀, acc = some (c₀, d₀) →
        d₀ = noteDistance clock c₀ ∧ d₀ < 100 ∧ ∀ n ∈ l, c₀.timing ≤ n.timing) →
      l.Pairwise (fun a b => a.timing ≤ b.timing) →
      ∀ c d, l.foldl (scanStep clock) acc = some (c, d) →
        d = noteDistance clock c ∧ d < 100 ∧
        (∀ c₀ d₀, acc = some (c₀, d₀) → (c = c₀ ∧ d = d₀) ∨ d < d₀) ∧
        (∀ n ∈ l, d ≤ noteDistance clock n) ∧
        (∀ n ∈ l, noteDistance clock n = d → c.timing ≤ n.timing) := by
  induction l with
  | nil =>
    intro acc hacc _ c d h
    simp only [List.foldl_nil] at h
    obtain ⟨h1, h2, -⟩ := hacc c d h
    refine ⟨h1, h2, ?_, by simp, by simp⟩
    intro c₀ d₀ h₀
    rw [h] at h₀
    obtain ⟨rfl, rfl⟩ := Prod.mk.injEq .. ▸ Option.some.injEq .. ▸ h₀.symm
    exact Or.inl ⟨rfl, rfl⟩
  | cons x xs ih =>
    intro acc hacc hsort c d h
    rw [List.foldl_cons] at h
    have hsx : ∀ n ∈ xs, x.timing ≤ n.timing := (List.pairwise_cons.1 hsort).1
    have hsxs := (List.pairwise_cons.1 hsort).2
    cases acc with
    | none =>
      by_cases hx : noteDistance clock x < 100
      · have h' : xs.foldl (scanStep clock) (some (x, noteDistance clock x)) = some (c, d) := by
          rw [scanStep_none, if_pos hx] at h; exact h
        have hacc' : ∀ c₀ d₀,
            (some (x, noteDistance clock x) : Option (Note × ℚ)) = some (c₀, d₀) →
            d₀ = noteDistance clock c₀ ∧ d₀ < 100 ∧ ∀ n ∈ xs, c₀.timing ≤ n.timing := by
          intro c₀ d₀ hh
          obtain ⟨rfl, rfl⟩ := Prod.mk.injEq .. ▸ Option.some.injEq .. ▸ hh.symm
          exact ⟨rfl, hx, hsx⟩
        obtain ⟨e1, e2, e3, e4, e5⟩ := ih (some (x, noteDistance clock x)) hacc' hsxs c d h'
        refine ⟨e1, e2, ?_, ?_, ?_⟩
        · intro c₀ d₀ hh; exact absurd hh (by simp)
        · intro n hn
          rcases List.mem_cons.1 hn with rfl | hn'
          · rcases e3 n (noteDistance clock n) rfl with ⟨rfl, rfl⟩ | hlt
            · exact le_refl _
            · exact le_of_lt hlt
          · exact e4 n hn'
        · intro n hn hdn
          rcases List.mem_cons.1 hn with rfl | hn'
          · rcases e3 n (noteDistance clock n) rfl with ⟨rfl, -⟩ | hlt
            · exact le_refl _
            · rw [hdn] at hlt; exact absurd hlt (lt_irrefl d)
          · exact e5 n hn' hdn
      · have h' : xs.foldl (scanStep clock) none = some (c, d) := by
          rw [scanStep_none, if_neg hx] at h; exact h
        obtain ⟨e1, e2, e3, e4, e5⟩ := ih none (by intro c₀ d₀ hh; exact absurd hh (by simp))
          hsxs c d h'
        refine ⟨e1, e2, by intro c₀ d₀ hh; exact absurd hh (by simp), ?_, ?_⟩
        · intro n hn
          rcases List.mem_cons.1 hn with rfl | hn'
          · exact le_of_lt (lt_of_lt_of_le e2 (not_lt.1 hx))
          · exact e4 n hn'
        · intro n hn hdn
          rcases List.mem_cons.1 hn with rfl | hn'
          · exact absurd (hdn ▸ e2) hx
          · exact e5 n hn' hdn
    | some p =>
      obtain ⟨c₀, cd₀⟩ := p
      obtain ⟨g1, g2, g3⟩ := hacc c₀ cd₀ rfl
      by_cases hx : noteDistance clock x < cd₀ ∧ noteDistance clock x < 100
      · have h' : xs.foldl (scanStep clock) (some (x, noteDistance clock x)) = some (c, d) := by
          rw [scanStep_some, if_pos hx] at h; exact h
        have hacc' : ∀ c₁ d₁,
            (some (x, noteDistance clock x) : Option (Note × ℚ)) = some (c₁, d₁) →
            d₁ = noteDistance clock c₁ ∧ d₁ < 100 ∧ ∀ n ∈ xs, c₁.timing ≤ n.timing := by
          intro c₁ d₁ hh
          obtain ⟨rfl, rfl⟩ := Prod.mk.injEq .. ▸ Option.some.injEq .. ▸ hh.symm
          exact ⟨rfl, hx.2, hsx⟩
        obtain ⟨e1, e2, e3, e4, e5⟩ := ih (some (x, noteDistance clock x)) hacc' hsxs c d h'
        have hddx : d ≤ noteDistance clock x := by
          rcases e3 x (noteDistance clock x) rfl with ⟨rfl, rfl⟩ | hlt
          · exact le_refl _
          · exact le_of_lt hlt
        refine ⟨e1, e2, ?_, ?_, ?_⟩
        · intro c₁ d₁ hh
          obtain ⟨rfl, rfl⟩ := Prod.mk.injEq .. ▸ Option.some.injEq .. ▸ hh.symm
          exact Or.inr (lt_of_le_of_lt hddx hx.1)
        · intro n hn
          rcases List.mem_cons.1 hn with rfl | hn'
          · exact hddx
          · exact e4 n hn'
        · intro n hn hdn
          rcases List.mem_cons.1 hn with rfl | hn'
          · rcases e3 n (noteDistance clock n) rfl with ⟨rfl, -⟩ | hlt
            · exact le_refl _
            · rw [hdn] at hlt; exact absurd hlt (lt_irrefl d)
          · exact e5 n hn' hdn
      · have h' : xs.foldl (scanStep clock) (some (c₀, cd₀)) = some (c, d) := by
          rw [scanStep_some, if_neg hx] at h; exact h
        have hacc' : ∀ c₁ d₁,
            (some (c₀, cd₀) : Option (Note × ℚ)) = some (c₁, d₁) →
            d₁ = noteDistance clock c₁ ∧ d₁ < 100 ∧ ∀ n ∈ xs, c₁.timing ≤ n.timing := by
          intro c₁ d₁ hh
          obtain ⟨rfl, rfl⟩ := Prod.mk.injEq .. ▸ Option.some.injEq .. ▸ hh.symm
          exact ⟨g1, g2, fun n hn => g3 n (List.mem_cons_of_mem x hn)⟩
        obtain ⟨e1, e2, e3, e4, e5⟩ := ih (some (c₀, cd₀)) hacc' hsxs c d h'
        have hdc : d ≤ cd₀ := by
          rcases e3 c₀ cd₀ rfl with ⟨-, rfl⟩ | hlt
          · exact le_refl _
          · exact le_of_lt hlt
        refine ⟨e1, e2, ?_, ?_, ?_⟩
        · intro c₁ d₁ hh
          obtain ⟨rfl, rfl⟩ := Prod.mk.injEq .. ▸ Option.some.injEq .. ▸ hh.symm
          exact e3 c₁ d₁ rfl
        · intro n hn
          rcases List.mem_cons.1 hn with rfl | hn'
          · rcases not_and_or.1 hx with h1 | h2
            · exact le_trans hdc (not_lt.1 h1)
            · exact le_of_lt (lt_of_lt_of_le e2 (not_lt.1 h2))
          · exact e4 n hn'
        · intro n hn hdn
          rcases List.mem_cons.1 hn with rfl | hn'
          · have hnd100 : noteDistance clock n < 100 := hdn ▸ e2
            have hc₀n : cd₀ ≤ noteDistance clock n :=
              not_lt.1 (fun hlt => hx ⟨hlt, hnd100⟩)
            rcases e3 c₀ cd₀ rfl with ⟨rfl, rfl⟩ | hlt
            · exact g3 n (List.mem_cons_self n xs)
            · rw [hdn] at hc₀n
              exact absurd (lt_of_lt_of_le hlt hc₀n) (lt_irrefl d)
          · exact e5 n hn' hdn

theorem list_map_id_of {α : Type} (f : α → α) :
    ∀ (l : List α), (∀ a ∈ l, f a = a) → l.map f = l := by
  intro l h
  induction l with
  | nil => rfl
  | cons x xs ih =>
    simp only [List.map_cons, h x (List.mem_cons_self x xs), List.cons.injEq, true_and]
    exact ih fun a ha => h a (List.mem_cons_of_mem x ha)

theorem notesPerBeat_pos (d : Difficulty) (r : ℚ) : 0 < notesPerBeat d r := by
  cases d <;> simp only [notesPerBeat] <;> (try split) <;> omega

theorem beatNotes_length (bi : ℚ) (beat k : ℕ) (rnd : ℕ → ℚ) (idx : ℕ) :
    (beatNotes bi beat k rnd idx).length = k := by
  simp [beatNotes]

theorem beatNotes_mem (bi : ℚ) (beat k : ℕ) (rnd : ℕ → ℚ) (idx : ℕ) (n : Note) :
    n ∈ beatNotes bi beat k rnd idx ↔
      ∃ i, i < k ∧
        n = { id := (beat, i), lane := (⌊rnd (idx + i) * (LANES : ℚ)⌋).toNat,
              timing := (beat : ℚ) * bi + (i : ℚ) * bi / (k : ℚ),
              hit := false, missed := false } := by
  simp only [beatNotes, List.mem_map, List.mem_range]
  constructor
  · rintro ⟨i, hi, rfl⟩; exact ⟨i, hi, rfl⟩
  · rintro ⟨i, hi, rfl⟩; exact ⟨i, hi, rfl⟩

/-- Structural facts about every note of a beat batch, needing no hypotheses:
flag values, id fields and the timing formula. -/
theorem beatNotes_fields (bi : ℚ) (beat k : ℕ) (rnd : ℕ → ℚ) (idx : ℕ) (n : Note)
    (hn : n ∈ beatNotes bi beat k rnd idx) :
    n.hit = false ∧ n.missed = false ∧ n.id.1 = beat ∧ n.id.2 < k ∧
      n.timing = (n.id.1 : ℚ) * bi + (n.id.2 : ℚ) * bi / (k : ℚ) := by
  obtain ⟨i, hi, rfl⟩ := (beatNotes_mem ..).1 hn
  exact ⟨rfl, rfl, rfl, hi, rfl⟩

theorem beatNotes_lane (bi : ℚ) (beat k : ℕ) (rnd : ℕ → ℚ) (idx : ℕ)
    (hr : ∀ m, 0 ≤ rnd m ∧ rnd m < 1) (n : Note)
    (hn : n ∈ beatNotes bi beat k rnd idx) : n.lane < LANES := by
  obtain ⟨i, hi, rfl⟩ := (beatNotes_mem ..).1 hn
  obtain ⟨h0, h1⟩ := hr (idx + i)
  have hmul0 : (0 : ℚ) ≤ rnd (idx + i) * (LANES : ℚ) := by
    have : (0 : ℚ) ≤ (LANES : ℚ) := by norm_num [LANES]
    exact mul_nonneg h0 this
  have hmul1 : rnd (idx + i) * (LANES : ℚ) < (LANES : ℚ) := by
    have hL : (0 : ℚ) < (LANES : ℚ) := by norm_num [LANES]
    calc rnd (idx + i) * (LANES : ℚ) < 1 * (LANES : ℚ) := by
          exact mul_lt_mul_of_pos_right h1 hL
      _ = (LANES : ℚ) := one_mul _
  have hf0 : 0 ≤ ⌊rnd (idx + i) * (LANES : ℚ)⌋ := Int.floor_nonneg.2 hmul0
  have hfl : ⌊rnd (idx + i) * (LANES : ℚ)⌋ < (LANES : ℤ) := by
    refine Int.floor_lt.2 ?_
    exact_mod_cast hmul1
  show (⌊rnd (idx + i) * (LANES : ℚ)⌋).toNat < LANES
  omega

theorem beatNotes_timing_lb (bi : ℚ) (beat k : ℕ) (rnd : ℕ → ℚ) (idx : ℕ)
    (hbi : 0 ≤ bi) (n : Note) (hn : n ∈ beatNotes bi beat k rnd idx) :
    (beat : ℚ) * bi ≤ n.timing := by
  obtain ⟨i, hi, rfl⟩ := (beatNotes_mem ..).1 hn
  have : (0 : ℚ) ≤ (i : ℚ) * bi / (k : ℚ) := by positivity
  simpa using this

theorem beatNotes_timing_ub (bi : ℚ) (beat k : ℕ) (rnd : ℕ → ℚ) (idx : ℕ)
    (hbi : 0 ≤ bi) (hk : 0 < k) (n : Note) (hn : n ∈ beatNotes bi beat k rnd idx) :
    n.timing ≤ ((beat : ℚ) + 1) * bi := by
  obtain ⟨i, hi, rfl⟩ := (beatNotes_mem ..).1 hn
  have hkq : (0 : ℚ) < (k : ℚ) := by exact_mod_cast hk
  have hik : (i : ℚ) ≤ (k : ℚ) := by exact_mod_cast Nat.le_of_lt hi
  have hstep : (i : ℚ) * bi / (k : ℚ) ≤ bi := by
    rw [div_le_iff₀ hkq]
    nlinarith
  show (beat : ℚ) * bi + (i : ℚ) * bi / (k : ℚ) ≤ ((beat : ℚ) + 1) * bi
  nlinarith

theorem beatNotes_sorted (bi : ℚ) (beat k : ℕ) (rnd : ℕ → ℚ) (idx : ℕ) (hbi : 0 ≤ bi) :
    (beatNotes bi beat k rnd idx).Pairwise (fun a b => a.timing ≤ b.timing) := by
  unfold beatNotes
  rw [List.pairwise_map]
  refine (List.pairwise_lt_range k).imp ?_
  intro i j hij
  show (beat : ℚ) * bi + (i : ℚ) * bi / (k : ℚ) ≤ (beat : ℚ) * bi + (j : ℚ) * bi / (k : ℚ)
  have hij' : (i : ℚ) ≤ (j : ℚ) := by exact_mod_cast Nat.le_of_lt hij
  have hk0 : (0 : ℚ) ≤ (k : ℚ) := by positivity
  rcases eq_or_lt_of_le hk0 with hk | hk
  · rw [← hk, div_zero, div_zero]
  · have : (i : ℚ) * bi / (k : ℚ) ≤ (j : ℚ) * bi / (k : ℚ) := by
      gcongr
    linarith

theorem genAux_flags (bi : ℚ) (d : Difficulty) (rnd : ℕ → ℚ) :
    ∀ rem beat idx, ∀ n ∈ genAux bi d rnd rem beat idx,
      n.hit = false ∧ n.missed = false := by
  intro rem
  induction rem with
  | zero => intro beat idx n hn; simp [genAux] at hn
  | succ m ih =>
    intro beat idx n hn
    rcases List.mem_append.1 hn with hb | hg
    · obtain ⟨h1, h2, -⟩ := beatNotes_fields _ _ _ _ _ _ hb
      exact ⟨h1, h2⟩
    · exact ih _ _ n hg

theorem genAux_timing_lb (bi : ℚ) (d : Difficulty) (rnd : ℕ → ℚ) (hbi : 0 ≤ bi) :
    ∀ rem beat idx, ∀ n ∈ genAux bi d rnd rem beat idx,
      (beat : ℚ) * bi ≤ n.timing := by
  intro rem
  induction rem with
  | zero => intro beat idx n hn; simp [genAux] at hn
  | succ m ih =>
    intro beat idx n hn
    rcases List.mem_append.1 hn with hb | hg
    · exact beatNotes_timing_lb _ _ _ _ _ hbi n hb
    · have h1 := ih (beat + 1) _ n hg
      have h2 : (beat : ℚ) * bi ≤ ((beat : ℕ) + 1 : ℕ) * bi := by
        push_cast
        nlinarith
      exact le_trans h2 h1

theorem genAux_sorted (bi : ℚ) (d : Difficulty) (rnd : ℕ → ℚ) (hbi : 0 ≤ bi) :
    ∀ rem beat idx,
      (genAux bi d rnd rem beat idx).Pairwise (fun a b => a.timing ≤ b.timing) := by
  intro rem
  induction rem with
  | zero => intro beat idx; simp [genAux]
  | succ m ih =>
    intro beat idx
    refine List.pairwise_append.2 ⟨beatNotes_sorted _ _ _ _ _ hbi, ih _ _, ?_⟩
    intro a ha b hb
    have hub : a.timing ≤ ((beat : ℚ) + 1) * bi :=
      beatNotes_timing_ub _ _ _ _ _ hbi (notesPerBeat_pos d (rnd idx)) a ha
    have hlb : ((beat + 1 : ℕ) : ℚ) * bi ≤ b.timing :=
      genAux_timing_lb _ _ _ hbi m (beat + 1) _ b hb
    have : ((beat : ℚ) + 1) * bi ≤ b.timing := by
      push_cast at hlb
      linarith
    linarith

theorem genAux_length (bi : ℚ) (d : Difficulty) (rnd : ℕ → ℚ) :
    ∀ rem beat idx, rem ≤ (genAux bi d rnd rem beat idx).length := by
  intro rem
  induction rem with
  | zero => intro beat idx; simp [genAux]
  | succ m ih =>
    intro beat idx
    rw [genAux, List.length_append, beatNotes_length]
    have h1 := ih (beat + 1) (idx + densityDraws d + notesPerBeat d (rnd idx))
    have h2 := notesPerBeat_pos d (rnd idx)
    omega

theorem genAux_lane (bi : ℚ) (d : Difficulty) (rnd : ℕ → ℚ)
    (hr : ∀ m, 0 ≤ rnd m ∧ rnd m < 1) :
    ∀ rem beat idx, ∀ n ∈ genAux bi d rnd rem beat idx, n.lane < LANES := by
  intro rem
  induction rem with
  | zero => intro beat idx n hn; simp [genAux] at hn
  | succ m ih =>
    intro beat idx n hn
    rcases List.mem_append.1 hn with hb | hg
    · exact beatNotes_lane _ _ _ _ _ hr n hb
    · exact ih _ _ n hg

theorem genAux_timing_formula (bi : ℚ) (d : Difficulty) (rnd : ℕ → ℚ) :
    ∀ rem beat idx, ∀ n ∈ genAux bi d rnd rem beat idx,
      beat ≤ n.id.1 ∧ n.id.1 < beat + rem ∧
      ∃ k, 0 < k ∧ n.id.2 < k ∧
        n.timing = (n.id.1 : ℚ) * bi + (n.id.2 : ℚ) * bi / (k : ℚ) := by
  intro rem
  induction rem with
  | zero => intro beat idx n hn; simp [genAux] at hn
  | succ m ih =>
    intro beat idx n hn
    rcases List.mem_append.1 hn with hb | hg
    · obtain ⟨-, -, hid, hlt, hform⟩ := beatNotes_fields _ _ _ _ _ _ hb
      refine ⟨le_of_eq hid.symm, by omega, notesPerBeat d (rnd idx), ?_, hlt, hform⟩
      exact notesPerBeat_pos d (rnd idx)
    · obtain ⟨h1, h2, h3⟩ := ih _ _ n hg
      exact ⟨by omega, by omega, h3⟩

theorem beatNotes_ids_nodup (bi : ℚ) (beat k : ℕ) (rnd : ℕ → ℚ) (idx : ℕ) :
    ((beatNotes bi beat k rnd idx).map Note.id).Nodup := by
  unfold beatNotes
  rw [List.map_map]
  have hinj : Function.Injective (fun i : ℕ => ((beat, i) : ℕ × ℕ)) := by
    intro a b h
    simpa using h
  exact (List.nodup_range k).map hinj

theorem genAux_ids_nodup (bi : ℚ) (d : Difficulty) (rnd : ℕ → ℚ) :
    ∀ rem beat idx, ((genAux bi d rnd rem beat idx).map Note.id).Nodup := by
  intro rem
  induction rem with
  | zero => intro beat idx; simp [genAux]
  | succ m ih =>
    intro beat idx
    rw [genAux, List.map_append, List.nodup_append]
    refine ⟨beatNotes_ids_nodup .., ih .., ?_⟩
    intro a ha hb
    obtain ⟨p, hp, rfl⟩ := List.mem_map.1 ha
    obtain ⟨q, hq, hqe⟩ := List.mem_map.1 hb
    have h1 : p.id.1 = beat := (beatNotes_fields _ _ _ _ _ _ hp).2.2.1
    have h2 : beat + 1 ≤ q.id.1 := (genAux_timing_formula _ d rnd m (beat + 1) _ q hq).1
    have h3 : q.id.1 = p.id.1 := congrArg Prod.fst hqe
    omega

/-- Every generated note's timing follows the even-spreading formula with
`k` equal to the number of notes the chart places in that note's beat: the
notes sharing the note's beat index are exactly that beat's batch, of size
equal to the drawn density. -/
theorem genAux_beat_count (bi : ℚ) (d : Difficulty) (rnd : ℕ → ℚ) :
    ∀ rem beat idx, ∀ n ∈ genAux bi d rnd rem beat idx,
      ∃ k, 0 < k ∧ n.id.2 < k ∧
        ((genAux bi d rnd rem beat idx).filter
          (fun x => x.id.1 == n.id.1)).length = k ∧
        n.timing = (n.id.1 : ℚ) * bi + (n.id.2 : ℚ) * bi / (k : ℚ) := by
  intro rem
  induction rem with
  | zero => intro beat idx n hn; simp [genAux] at hn
  | succ m ih =>
    intro beat idx n hn
    rw [genAux] at hn ⊢
    rw [List.filter_append, List.length_append]
    rcases List.mem_append.1 hn with hb | hg
    · obtain ⟨-, -, hid, hlt, hform⟩ := beatNotes_fields _ _ _ _ _ _ hb
      refine ⟨notesPerBeat d (rnd idx), notesPerBeat_pos d (rnd idx), hlt, ?_, hform⟩
      have hBf : (beatNotes bi beat (notesPerBeat d (rnd idx)) rnd
            (idx + densityDraws d)).filter (fun x => x.id.1 == n.id.1) =
          beatNotes bi beat (notesPerBeat d (rnd idx)) rnd (idx + densityDraws d) := by
        apply List.filter_eq_self.2
        intro p hp
        have hp1 := (beatNotes_fields _ _ _ _ _ _ hp).2.2.1
        simp [hp1, hid]
      have hTf : (genAux bi d rnd m (beat + 1)
            (idx + densityDraws d + notesPerBeat d (rnd idx))).filter
          (fun x => x.id.1 == n.id.1) = [] := by
        apply List.filter_eq_nil_iff.2
        intro q hq
        have h2 := (genAux_timing_formula bi d rnd m (beat + 1) _ q hq).1
        simp only [beq_iff_eq, hid]
        omega
      rw [hBf, hTf, beatNotes_length]
      simp
    · obtain ⟨k, hk0, hk2, hklen, hkform⟩ := ih (beat + 1) _ n hg
      have h1 : beat + 1 ≤ n.id.1 := (genAux_timing_formula bi d rnd m (beat + 1) _ n hg).1
      refine ⟨k, hk0, hk2, ?_, hkform⟩
      have hBf : (beatNotes bi beat (notesPerBeat d (rnd idx)) rnd
            (idx + densityDraws d)).filter (fun x => x.id.1 == n.id.1) = [] := by
        apply List.filter_eq_nil_iff.2
        intro p hp
        have hp1 := (beatNotes_fields _ _ _ _ _ _ hp).2.2.1
        simp only [beq_iff_eq, hp1]
        omega
      rw [hBf, hklen]
      simp

theorem advance_frozen (delta : ℚ) (s : GameState)
    (h : s.isPaused = true ∨ s.isGameOver = true) : advance delta s = s := by
  rcases h with h | h <;> simp [advance, h]

theorem press_gameOver (lane : ℕ) (s : GameState) (h : s.isGameOver = true) :
    press lane s = (s, HitResult.NoTarget) := by
  simp [press, h]

theorem press_active (lane : ℕ) (s : GameState) (h : s.isGameOver = false) :
    press lane s = hitNote lane s := by
  simp [press, h]

theorem togglePause_gameOver (s : GameState) (h : s.isGameOver = true) :
    togglePause s = s := by
  simp [togglePause, h]

theorem hitNote_none (lane : ℕ) (s : GameState)
    (hfc : findClosest s.gameTime lane s.notes = none) :
    hitNote lane s = (s, HitResult.NoTarget) := by
  simp [hitNote, hfc]

theorem hitNote_some (lane : ℕ) (s : GameState) (c : Note) (d : ℚ)
    (hfc : findClosest s.gameTime lane s.notes = some (c, d)) :
    hitNote lane s =
      ({ s with
          notes := s.notes.map fun n => if n.id = c.id then { n with hit := true } else n
          score := s.score + if d < 30 then 300 else 100
          combo := s.combo + 1
          maxCombo := max s.maxCombo (s.combo + 1)
          missCount := 0 },
        HitResult.Hit (if d < 30 then HitKind.Perfect else HitKind.Good)
          (if d < 30 then 300 else 100)) := by
  simp [hitNote, hfc]

/-- Right after a zero-delta frame of an active session, every pending note
is at or before the miss line for the (unchanged) clock: the sweep just ran
at exactly that clock. -/
theorem advance_zero_pendingInBounds (s : GameState)
    (hp : s.isPaused = false) (hg : s.isGameOver = false) :
    pendingInBounds (advance 0 s) := by
  intro n' hn' hpend
  simp only [advance, hp, hg, Bool.or_self, Bool.false_or, if_false,
    add_zero] at hn' ⊢
  obtain ⟨n, hn, rfl⟩ := List.mem_map.1 hn'
  by_cases ho : overdue s.gameTime n
  · exfalso
    rw [sweepNote, if_pos ho, status_pending_iff] at hpend
    simp at hpend
  · rw [sweepNote, if_neg ho] at hpend ⊢
    obtain ⟨hh, hm⟩ := (status_pending_iff n).1 hpend
    exact not_lt.1 (fun hlt => ho ⟨hlt, hh, hm⟩)


theorem advance_zero_of_pendingInBounds (s : GameState) (hinv : pendingInBounds s) :
    advance 0 s = s := by
  by_cases hp : s.isPaused = true
  · exact advance_frozen 0 s (Or.inl hp)
  by_cases hg : s.isGameOver = true
  · exact advance_frozen 0 s (Or.inr hg)
  rw [Bool.not_eq_true] at hp hg
  have hover : ∀ n ∈ s.notes, ¬ overdue s.gameTime n := by
    intro n hn ho
    obtain ⟨h1, h2, h3⟩ := ho
    have hpend : n.status = Status.Pending := (status_pending_iff n).2 ⟨h2, h3⟩
    exact absurd h1 (not_lt.2 (hinv n hn hpend))
  have hcount : missSweepCount s.gameTime s.notes = 0 := by
    unfold missSweepCount
    rw [List.filter_eq_nil_iff.2 ?_]
    · rfl
    · intro a ha; simpa using hover a ha
  have hmap : s.notes.map (sweepNote s.gameTime) = s.notes := by
    apply list_map_id_of
    intro a ha
    rw [sweepNote, if_neg (hover a ha)]
  rw [advance, if_neg (by simp [hp, hg])]
  rw [add_zero, hcount, hmap]
  simp

/-- A zero-delta frame is idempotent: the first one may catch the sweep up
with the clock, after which a second changes nothing. -/
theorem advance_zero_idem (s : GameState) :
    advance 0 (advance 0 s) = advance 0 s := by
  by_cases hp : s.isPaused = true
  · rw [advance_frozen 0 s (Or.inl hp)]
    exact advance_frozen 0 s (Or.inl hp)
  by_cases hg : s.isGameOver = true
  · rw [advance_frozen 0 s (Or.inr hg)]
    exact advance_frozen 0 s (Or.inr hg)
  rw [Bool.not_eq_true] at hp hg
  exact advance_zero_of_pendingInBounds _ (advance_zero_pendingInBounds s hp hg)

theorem advance_zero_gameTime (s : GameState) :
    (advance 0 s).gameTime = s.gameTime := by
  by_cases hp : s.isPaused = true
  · rw [advance_frozen 0 s (Or.inl hp)]
  by_cases hg : s.isGameOver = true
  · rw [advance_frozen 0 s (Or.inr hg)]
  rw [Bool.not_eq_true] at hp hg
  simp [advance, hp, hg]

theorem reachable_gameOver_iff (s : GameState) (h : Reachable s) :
    s.isGameOver = true ↔ 10 ≤ s.missCount := by
  induction h with
  | init bpm d tb rnd hbpm hr => simp [initState]
  | advance s delta hs hd ih =>
    by_cases hp : s.isPaused = true
    · rw [advance_frozen _ _ (Or.inl hp)]; exact ih
    by_cases hg : s.isGameOver = true
    · rw [advance_frozen _ _ (Or.inr hg)]; exact ih
    rw [Bool.not_eq_true] at hp hg
    have hmc : s.missCount < 10 := by
      by_contra hmc
      exact absurd (ih.2 (not_lt.1 hmc)) (by simp [hg])
    simp only [advance, hp, hg, Bool.or_self, Bool.false_or, Bool.false_eq_true,
      if_false, Bool.and_eq_true, decide_eq_true_eq]
    omega
  | press s lane hs ih =>
    by_cases hg : s.isGameOver = true
    · rw [press_gameOver _ _ hg]; exact ih
    · rw [Bool.not_eq_true] at hg
      rw [press_active _ _ hg]
      cases hfc : findClosest s.gameTime lane s.notes with
      | none => simpa only [hitNote, hfc] using ih
      | some p =>
        obtain ⟨c, cd⟩ := p
        simp [hitNote, hfc, hg]
  | toggle s hs ih =>
    by_cases hg : s.isGameOver = true
    · rw [togglePause_gameOver _ hg]; exact ih
    · rw [Bool.not_eq_true] at hg
      simpa only [togglePause, hg, Bool.false_eq_true, if_false] using ih
  | restart s bpm d tb rnd hs hbpm hr ih => simp [restart]

/-- C1: in a running session whose notes are sorted by scheduled time, a
press on a lane reports no target exactly when no pending note of the lane is
within the 100-unit window, and the note the search returns is a pending note
of the lane inside the window with the least distance to the hit line,
earliest-scheduled among equal-distance candidates. -/
theorem C1_press_selects_closest (s : GameState) (lane : ℕ)
    (hrun : s.lifecycle = Lifecycle.Running)
    (hsort : s.notes.Pairwise (fun a b => a.timing ≤ b.timing)) :
    ((press lane s).2 = HitResult.NoTarget ↔
      ∀ n ∈ s.notes, ¬ qualifies s.gameTime lane n) ∧
    ∀ c d, findClosest s.gameTime lane s.notes = some (c, d) →
      c ∈ s.notes ∧ qualifies s.gameTime lane c ∧ d = noteDistance s.gameTime c ∧
      ∀ n ∈ s.notes, qualifies s.gameTime lane n →
        noteDistance s.gameTime c ≤ noteDistance s.gameTime n ∧
        (noteDistance s.gameTime n = noteDistance s.gameTime c → c.timing ≤ n.timing) := by
  obtain ⟨hg, hp⟩ := (lifecycle_running_iff s).1 hrun
  have hfsort : (s.notes.filter (lanePending lane)).Pairwise
      (fun a b => a.timing ≤ b.timing) := hsort.sublist (List.filter_sublist _)
  have hqual : ∀ n, (n ∈ s.notes.filter (lanePending lane) ∧
      noteDistance s.gameTime n < 100) ↔ (n ∈ s.notes ∧ qualifies s.gameTime lane n) := by
    intro n
    rw [List.mem_filter, lanePending_iff]
    unfold qualifies
    tauto
  constructor
  · rw [press_active _ _ hg]
    cases hfc : findClosest s.gameTime lane s.notes with
    | none =>
      rw [hitNote_none _ _ hfc]
      have hnone := (scan_none_iff s.gameTime _ none).1 hfc
      refine iff_of_true rfl ?_
      intro n hn hq
      have hmem : n ∈ s.notes.filter (lanePending lane) := ((hqual n).2 ⟨hn, hq⟩).1
      exact hnone.2 n hmem hq.2.2
    | some p =>
      obtain ⟨c, cd⟩ := p
      rw [hitNote_some _ _ _ _ hfc]
      obtain ⟨e1, e2, -, -, -⟩ := scan_some_spec s.gameTime _ none
        (fun c₀ d₀ hh => absurd hh (by simp)) hfsort c cd hfc
      have hcmem : c ∈ s.notes.filter (lanePending lane) := by
        rcases scan_mem s.gameTime _ none c cd hfc with h | h
        · exact absurd h (by simp)
        · exact h
      have hcq : c ∈ s.notes ∧ qualifies s.gameTime lane c :=
        (hqual c).1 ⟨hcmem, e1 ▸ e2⟩
      exact iff_of_false (by simp) (fun hall => hall c hcq.1 hcq.2)
  · intro c d hfc
    obtain ⟨e1, e2, -, e4, e5⟩ := scan_some_spec s.gameTime _ none
      (fun c₀ d₀ hh => absurd hh (by simp)) hfsort c d hfc
    have hcmem : c ∈ s.notes.filter (lanePending lane) := by
      rcases scan_mem s.gameTime _ none c d hfc with h | h
      · exact absurd h (by simp)
      · exact h
    have hcq : c ∈ s.notes ∧ qualifies s.gameTime lane c :=
      (hqual c).1 ⟨hcmem, e1 ▸ e2⟩
    refine ⟨hcq.1, hcq.2, e1, ?_⟩
    intro n hn hq
    have hnf : n ∈ s.notes.filter (lanePending lane) := ((hqual n).2 ⟨hn, hq⟩).1
    constructor
    · have := e4 n hnf
      rw [e1] at this
      exact this
    · intro hdn
      refine e5 n hnf ?_
      rw [e1]
      exact hdn

/-- C4: when no pending note of the pressed lane lies within the hit window,
the press returns no target and leaves the whole session state — score,
combo, maxCombo, missStreak, clock and every note — untouched. -/
theorem C4_no_target_no_change (s : GameState) (lane : ℕ)
    (hno : ∀ n ∈ s.notes, n.lane = lane → n.status = Status.Pending →
      ¬ noteDistance s.gameTime n < 100) :
    press lane s = (s, HitResult.NoTarget) := by
  by_cases hg : s.isGameOver = true
  · exact press_gameOver lane s hg
  · rw [Bool.not_eq_true] at hg
    rw [press_active _ _ hg]
    have hfc : findClosest s.gameTime lane s.notes = none := by
      unfold findClosest
      rw [scan_none_iff]
      refine ⟨rfl, ?_⟩
      intro n hn
      rw [List.mem_filter] at hn
      obtain ⟨h1, h2⟩ := (lanePending_iff lane n).1 hn.2
      exact hno n hn.1 h1 h2
    simp [hitNote, hfc]

/-- C2: when a running session's press finds a note, that note's status
becomes Hit, the result is Perfect worth 300 points when its stored distance
is below 30 and Good worth 100 points otherwise, the combo grows by one,
maxCombo absorbs the new combo, and the miss streak resets to zero. -/
theorem C2_hit_updates (s : GameState) (lane : ℕ) (c : Note) (d : ℚ)
    (hrun : s.lifecycle = Lifecycle.Running)
    (hfind : findClosest s.gameTime lane s.notes = some (c, d)) :
    (press lane s).1.combo = s.combo + 1 ∧
    (press lane s).1.maxCombo = max s.maxCombo (s.combo + 1) ∧
    (press lane s).1.missCount = 0 ∧
    (press lane s).1.notes =
      s.notes.map (fun n => if n.id = c.id then { n with hit := true } else n) ∧
    (∀ n ∈ (press lane s).1.notes, n.id = c.id → n.status = Status.Hit) ∧
    (d < 30 → (press lane s).2 = HitResult.Hit HitKind.Perfect 300 ∧
      (press lane s).1.score = s.score + 300) ∧
    (¬ d < 30 → (press lane s).2 = HitResult.Hit HitKind.Good 100 ∧
      (press lane s).1.score = s.score + 100) := by
  obtain ⟨hg, -⟩ := (lifecycle_running_iff s).1 hrun
  rw [press_active _ _ hg, hitNote_some _ _ _ _ hfind]
  refine ⟨rfl, rfl, rfl, rfl, ?_, ?_, ?_⟩
  · intro n hn hid
    obtain ⟨m, hm, rfl⟩ := List.mem_map.1 hn
    by_cases h : m.id = c.id
    · rw [if_pos h]
      rfl
    · rw [if_neg h] at hid
      exact absurd hid h
  · intro h30
    rw [if_pos h30, if_pos h30]
    exact ⟨rfl, rfl⟩
  · intro h30
    rw [if_neg h30, if_neg h30]
    exact ⟨rfl, rfl⟩

/-- C3: in every reachable session state the lifecycle is GameOver exactly
when the miss streak has reached the fail threshold of 10 — the flag is set
at the very miss that first pushes the streak to 10, nothing can lower the
streak afterwards, and a restart clears both together. -/
theorem C3_gameOver_iff_missStreak (s : GameState) (h : Reachable s) :
    s.lifecycle = Lifecycle.GameOver ↔ 10 ≤ s.missCount := by
  rw [lifecycle_gameOver_iff]
  exact reachable_gameOver_iff s h

/-- C5 amended: in a GameOver state press, advance and the pause toggle are
all no-ops; in a Paused state advance is a no-op but a press is processed
exactly as when running. -/
theorem C5_nonrunning_guards (s : GameState) (lane : ℕ) (delta : ℚ) :
    (s.lifecycle = Lifecycle.GameOver →
      press lane s = (s, HitResult.NoTarget) ∧ advance delta s = s ∧
        togglePause s = s) ∧
    (s.lifecycle = Lifecycle.Paused →
      advance delta s = s ∧ press lane s = hitNote lane s) := by
  constructor
  · intro hgo
    have hg := (lifecycle_gameOver_iff s).1 hgo
    exact ⟨press_gameOver lane s hg, advance_frozen delta s (Or.inr hg),
      togglePause_gameOver s hg⟩
  · intro hpa
    obtain ⟨hg, hp⟩ := (lifecycle_paused_iff s).1 hpa
    exact ⟨advance_frozen delta s (Or.inl hp), press_active lane s hg⟩

/-- C6: for every positive tempo, difficulty and beat count, and every random
stream with draws in `[0, 1)`, the generated chart is sorted by scheduled
time, keeps every lane below `LANE_COUNT`, contains at least one note per
beat, has pairwise-distinct note ids, and gives the note with id `(b, i)` the
scheduled time `b * beatInterval + i * beatInterval / k`, where `k` is the
number of notes the chart places in beat `b` (the notes whose id carries beat
index `b`) and every slot satisfies `i < k`. -/
theorem C6_generator_contract (bpm : ℚ) (d : Difficulty) (tb : ℕ) (rnd : ℕ → ℚ)
    (hbpm : 0 < bpm) (_htb : 0 < tb) (hr : ∀ m, 0 ≤ rnd m ∧ rnd m < 1) :
    (generateNotes bpm d tb rnd).Pairwise (fun a b => a.timing ≤ b.timing) ∧
    (∀ n ∈ generateNotes bpm d tb rnd, n.lane < LANES) ∧
    tb ≤ (generateNotes bpm d tb rnd).length ∧
    ((generateNotes bpm d tb rnd).map Note.id).Nodup ∧
    (∀ n ∈ generateNotes bpm d tb rnd,
      n.id.1 < tb ∧
      n.id.2 < ((generateNotes bpm d tb rnd).filter
        (fun x => x.id.1 == n.id.1)).length ∧
      n.timing = (n.id.1 : ℚ) * (60000 / bpm) +
        (n.id.2 : ℚ) * (60000 / bpm) /
          ((((generateNotes bpm d tb rnd).filter
            (fun x => x.id.1 == n.id.1)).length : ℕ) : ℚ)) := by
  have hbi : (0 : ℚ) ≤ 60000 / bpm := le_of_lt (div_pos (by norm_num) hbpm)
  refine ⟨genAux_sorted _ d rnd hbi tb 0 0, genAux_lane _ d rnd hr tb 0 0,
    genAux_length _ d rnd tb 0 0, genAux_ids_nodup _ d rnd tb 0 0, ?_⟩
  intro n hn
  have hlt : n.id.1 < tb := by
    have := (genAux_timing_formula _ d rnd tb 0 0 n hn).2.1
    omega
  obtain ⟨k, hk0, hk2, hklen, hkform⟩ := genAux_beat_count _ d rnd tb 0 0 n hn
  have hklen' : ((generateNotes bpm d tb rnd).filter
      (fun x => x.id.1 == n.id.1)).length = k := hklen
  refine ⟨hlt, ?_⟩
  rw [hklen']
  exact ⟨hk2, hkform⟩

/-- C8: restarting from any state zeroes score, combo, maxCombo, miss streak
and clock, re-enters the running lifecycle, and installs a freshly generated
chart whose notes are all pending. -/
theorem C8_restart_resets (s : GameState) (bpm : ℚ) (d : Difficulty) (tb : ℕ)
    (rnd : ℕ → ℚ) :
    (restart bpm d tb rnd s).score = 0 ∧ (restart bpm d tb rnd s).combo = 0 ∧
    (restart bpm d tb rnd s).maxCombo = 0 ∧
    (restart bpm d tb rnd s).missCount = 0 ∧
    (restart bpm d tb rnd s).gameTime = 0 ∧
    (restart bpm d tb rnd s).lifecycle = Lifecycle.Running ∧
    (restart bpm d tb rnd s).notes = generateNotes bpm d tb rnd ∧
    ∀ n ∈ (restart bpm d tb rnd s).notes, n.status = Status.Pending := by
  refine ⟨rfl, rfl, rfl, rfl, rfl, rfl, rfl, ?_⟩
  intro n hn
  obtain ⟨f1, f2⟩ := genAux_flags _ d rnd tb 0 0 n hn
  exact (status_pending_iff n).2 ⟨f1, f2⟩

/-- C9 amended: `advance 0` never changes the clock and is idempotent — the
first zero-delta frame may catch the lagging sweep up with the clock by
marking pending notes already past the miss line as missed, but after it any
number of further `advance 0` calls changes nothing; and from any state whose
pending notes are all at or before the miss line for the current clock,
`advance 0` is the identity outright. -/
theorem C9_advance_zero_idempotent (s : GameState) :
    (advance 0 s).gameTime = s.gameTime ∧
    advance 0 (advance 0 s) = advance 0 s ∧
    (∀ m : ℕ, (advance 0)^[m + 1] s = advance 0 s) ∧
    (pendingInBounds s → advance 0 s = s) := by
  refine ⟨advance_zero_gameTime s, advance_zero_idem s, ?_,
    advance_zero_of_pendingInBounds s⟩
  intro m
  induction m with
  | zero => rfl
  | succ k ih => rw [Function.iterate_succ_apply', ih, advance_zero_idem]

/-- C10 amended: the offset-based variant accepts exactly when
`clock - scheduledTime` lies in `(-375, -175)` while the direct-position
variant accepts exactly on `(3600, 5200)`; the two acceptance regions are
disjoint, so the variants never agree on an accepted note and are not
equivalent. -/
theorem C10_variants_characterized (clock timing : ℚ) :
    (offsetAccept clock timing ↔
      -375 < clock - timing ∧ clock - timing < -175) ∧
    (positionAccept clock timing ↔
      3600 < clock - timing ∧ clock - timing < 5200) ∧
    ¬ (offsetAccept clock timing ∧ positionAccept clock timing) := by
  unfold offsetAccept positionAccept NOTE_SPEED HIT_ZONE_Y
  refine ⟨?_, ?_, ?_⟩
  · rw [abs_lt]
    constructor <;> rintro ⟨a, b⟩ <;> exact ⟨by linarith, by linarith⟩
  · rw [abs_lt]
    constructor <;> rintro ⟨a, b⟩ <;> exact ⟨by linarith, by linarith⟩
  · rintro ⟨ha, hb⟩
    rw [abs_lt] at ha hb
    obtain ⟨a1, a2⟩ := ha
    obtain ⟨b1, b2⟩ := hb
    linarith

/-- C7: every generated note starts pending; the miss sweep only ever touches
pending notes, so a missed note is never miss-counted twice; the press search
only ever returns a pending note; and under any engine step within a session
(with the session's unique note ids) a note that is already Hit or Missed is
left bit-for-bit unchanged — a status transitions at most once and never
reverts. -/
theorem C7_single_transition :
    (∀ (bpm : ℚ) (d : Difficulty) (tb : ℕ) (rnd : ℕ → ℚ),
      ∀ n ∈ generateNotes bpm d tb rnd, n.status = Status.Pending) ∧
    (∀ (clock : ℚ) (n : Note), n.status ≠ Status.Pending → ¬ overdue clock n) ∧
    (∀ (clock : ℚ) (lane : ℕ) (notes : List Note) (c : Note) (d : ℚ),
      findClosest clock lane notes = some (c, d) →
        c ∈ notes ∧ c.status = Status.Pending) ∧
    (∀ s s', Step s s' → (s.notes.map Note.id).Nodup →
      s'.notes.length = s.notes.length ∧
      ∀ i (hi : i < s.notes.length) (hi' : i < s'.notes.length),
        (s.notes[i]).status ≠ Status.Pending → s'.notes[i] = s.notes[i]) := by
  have hsel : ∀ (clock : ℚ) (lane : ℕ) (notes : List Note) (c : Note) (d : ℚ),
      findClosest clock lane notes = some (c, d) →
        c ∈ notes ∧ c.status = Status.Pending := by
    intro clock lane notes c d hfc
    rcases scan_mem clock _ none c d hfc with h | h
    · exact absurd h (by simp)
    · rw [List.mem_filter] at h
      obtain ⟨-, h2⟩ := (lanePending_iff lane c).1 h.2
      exact ⟨h.1, h2⟩
  refine ⟨?_, ?_, hsel, ?_⟩
  · intro bpm d tb rnd n hn
    obtain ⟨f1, f2⟩ := genAux_flags _ d rnd tb 0 0 n hn
    exact (status_pending_iff n).2 ⟨f1, f2⟩
  · rintro clock n hnp ⟨-, h2, h3⟩
    exact hnp ((status_pending_iff n).2 ⟨h2, h3⟩)
  · intro s s' hstep hnodup
    cases hstep with
    | advance delta hd =>
      by_cases hp : s.isPaused = true
      · rw [advance_frozen _ _ (Or.inl hp)]
        exact ⟨rfl, fun i hi hi' _ => rfl⟩
      by_cases hg : s.isGameOver = true
      · rw [advance_frozen _ _ (Or.inr hg)]
        exact ⟨rfl, fun i hi hi' _ => rfl⟩
      rw [Bool.not_eq_true] at hp hg
      have hnotes : (advance delta s).notes =
          s.notes.map (sweepNote s.gameTime) := by
        simp [advance, hp, hg]
      refine ⟨by rw [hnotes, List.length_map], ?_⟩
      intro i hi hi' hnp
      have hgoal : (advance delta s).notes[i] =
          sweepNote s.gameTime s.notes[i] := by
        simp only [hnotes, List.getElem_map]
      rw [hgoal, sweepNote, if_neg ?_]
      rintro ⟨-, h2, h3⟩
      exact hnp ((status_pending_iff _).2 ⟨h2, h3⟩)
    | press lane =>
      by_cases hg : s.isGameOver = true
      · rw [press_gameOver _ _ hg]
        exact ⟨rfl, fun i hi hi' _ => rfl⟩
      rw [Bool.not_eq_true] at hg
      rw [press_active _ _ hg]
      cases hfc : findClosest s.gameTime lane s.notes with
      | none =>
        rw [hitNote_none _ _ hfc]
        exact ⟨rfl, fun i hi hi' _ => rfl⟩
      | some p =>
        obtain ⟨c, cd⟩ := p
        rw [hitNote_some _ _ _ _ hfc]
        refine ⟨List.length_map .., ?_⟩
        intro i hi hi' hnp
        rw [List.getElem_map]
        by_cases hid : (s.notes[i]).id = c.id
        · exfalso
          obtain ⟨hcmem, hcpend⟩ := hsel s.gameTime lane s.notes c cd hfc
          have hin : s.notes[i] ∈ s.notes := List.getElem_mem hi
          have heq : s.notes[i] = c :=
            List.inj_on_of_nodup_map hnodup hin hcmem hid
          rw [heq] at hnp
          exact hnp hcpend
        · rw [if_neg hid]
    | toggle =>
      by_cases hg : s.isGameOver = true
      · rw [togglePause_gameOver _ hg]
        exact ⟨rfl, fun i hi hi' _ => rfl⟩
      · rw [Bool.not_eq_true] at hg
        have hnotes : (togglePause s).notes = s.notes := by
          simp [togglePause, hg]
        refine ⟨by rw [hnotes], ?_⟩
        intro i hi hi' _
        simp only [hnotes]

section Concrete

attribute [local semireducible] Rat.add Rat.mul Rat.sub Rat.inv

/-- C5 as stated is false: with the session paused, a press is still
processed.  In the paused one-note session whose note sits on the hit line,
the score is 0 before and 300 after the press on lane 0. -/
theorem C5_counterexample :
    demoPaused.lifecycle = Lifecycle.Paused ∧ demoPaused.score = 0 ∧
      (press 0 demoPaused).1.score = 300 := by
  refine ⟨by decide, by decide, by decide⟩

/-- C10 as stated is false: at `clock - scheduledTime = 4000` the
direct-position predicate accepts the note while the offset-based predicate
rejects it, so the two observed hit-matching variants are not equivalent. -/
theorem C10_counterexample :
    positionAccept 4000 0 ∧ ¬ offsetAccept 4000 0 := by
  refine ⟨by decide, by decide⟩

theorem C1_witness :
    note0 ∈ demoState.notes ∧ qualifies demoState.gameTime 0 note0 := by
  have h := (C1_press_selects_closest demoState 0 (by decide) (by decide)).2
    note0 0 (by decide)
  exact ⟨h.1, h.2.1⟩

theorem C2_witness :
    (press 0 demoState).1.combo = demoState.combo + 1 ∧
    (press 0 demoState).2 = HitResult.Hit HitKind.Perfect 300 := by
  have h := C2_hit_updates demoState 0 note0 0 (by decide) (by decide)
  exact ⟨h.1, (h.2.2.2.2.2.1 (by norm_num)).1⟩

theorem C3_witness :
    (initState 120 Difficulty.Easy 1 f0).lifecycle ≠ Lifecycle.GameOver := by
  intro hcon
  have h := C3_gameOver_iff_missStreak (initState 120 Difficulty.Easy 1 f0)
    (Reachable.init 120 Difficulty.Easy 1 f0 (by norm_num)
      (fun n => ⟨by norm_num [f0], by norm_num [f0]⟩))
  have := h.1 hcon
  simp [initState] at this

theorem C4_witness : press 0 demoInit = (demoInit, HitResult.NoTarget) :=
  C4_no_target_no_change demoInit 0 (by decide)

theorem C5_witness :
    overState.lifecycle = Lifecycle.GameOver ∧
    (press 0 overState = (overState, HitResult.NoTarget) ∧
      advance 16 overState = overState ∧ togglePause overState = overState) ∧
    demoPaused.lifecycle = Lifecycle.Paused ∧
    (advance 16 demoPaused = demoPaused ∧
      press 1 demoPaused = hitNote 1 demoPaused) := by
  exact ⟨by decide, (C5_nonrunning_guards overState 0 16).1 (by decide),
    by decide, (C5_nonrunning_guards demoPaused 1 16).2 (by decide)⟩

theorem C6_witness :
    (generateNotes 120 Difficulty.Easy 2 f0).Pairwise
      (fun a b => a.timing ≤ b.timing) ∧
    2 ≤ (generateNotes 120 Difficulty.Easy 2 f0).length := by
  have h := C6_generator_contract 120 Difficulty.Easy 2 f0 (by norm_num)
    (by norm_num) (fun m => ⟨by norm_num [f0], by norm_num [f0]⟩)
  exact ⟨h.1, h.2.2.1⟩

theorem C7_witness :
    note0.status = Status.Pending ∧
    (advance 16 demoInit).notes.length = demoInit.notes.length := by
  refine ⟨C7_single_transition.1 120 Difficulty.Easy 1 f0 note0 (by decide), ?_⟩
  exact (C7_single_transition.2.2.2 demoInit _
    (Step.advance demoInit 16 (by norm_num)) (by decide)).1

theorem C8_witness :
    (restart 100 Difficulty.Hard 3 f0 overState).score = 0 ∧
    (restart 100 Difficulty.Hard 3 f0 overState).lifecycle = Lifecycle.Running := by
  have h := C8_restart_resets overState 100 Difficulty.Hard 3 f0
  exact ⟨h.1, h.2.2.2.2.2.1⟩

/-- C9 as stated is false of the program: the sweep lags the clock by one
frame, so the reachable state after a single 5208 ms frame still holds its
note pending past the miss line (position 651), and the next zero-delta
frame sweeps it, raising the miss streak from 0 to 1. -/
theorem C9_counterexample :
    (advance 5208 demoInit).missCount = 0 ∧
    (advance 0 (advance 5208 demoInit)).missCount = 1 := by
  refine ⟨by decide, by decide⟩

theorem C9_witness : advance 0 demoInit = demoInit :=
  (C9_advance_zero_idempotent demoInit).2.2.2 (by decide)

theorem C10_witness : positionAccept 4400 0 :=
  (C10_variants_characterized 4400 0).2.1.mpr ⟨by norm_num, by norm_num⟩

end Concrete

end RhythmGame
